import Mathlib

/-!
Verification of the proton-in-magnetic-field simulator (`fuerza_lorentz_app.py`).

The numeric state and the integrator `run_simulation` are embedded over `ℚ`
(exact arithmetic standing for the script's floats).  The three parallel
Python lists `posiciones_x`, `posiciones_y`, `times` are represented as one
list of `Sample` records, index-aligned exactly as the script appends them.
-/

/-- Physical constant `q_proton = 1.602e-19` (line 20 of the source). -/
def q_proton : ℚ := 1.602e-19

/-- Physical constant `m_proton = 1.672e-27` (line 21). -/
def m_proton : ℚ := 1.672e-27

/-- Default field magnitude `B_initial = 0.005` (line 24). -/
def B_initial : ℚ := 0.005

/-- Default initial speed `velocity_initial = 15000` (line 25). -/
def velocity_initial : ℚ := 15000

/-- Time step `dt = 1e-8` (line 26). -/
def dt : ℚ := 1e-8

/-- Maximum step count `n_steps = 5000` (line 27). -/
def n_steps : ℕ := 5000

/-- Field boundary `field_start_pos_x = 0.0` (line 28). -/
def field_start_pos_x : ℚ := 0.0

/-- Initial x position `initial_pos_x = -0.02` (line 29). -/
def initial_pos_x : ℚ := -0.02

/-- Display bound `X_LIM_RIGHT = 0.05` (line 33). -/
def X_LIM_RIGHT : ℚ := 0.05

/-- Display bound `Y_LIM = 0.1` (line 34). -/
def Y_LIM : ℚ := 0.1

/-- The integrator's mutable state: `pos = [px, py]`, `vel = [vx, vy]`
(lines 95-96). -/
structure SimState where
  px : ℚ
  py : ℚ
  vx : ℚ
  vy : ℚ
deriving DecidableEq

/-- One appended sample: entries of `posiciones_x`, `posiciones_y`, `times`
at a common index (lines 98-100, 123-125). -/
structure Sample where
  x : ℚ
  y : ℚ
  t : ℚ
deriving DecidableEq

/-- Line 106: `current_B = b_mag if (not field_off_flag and pos[0] >=
field_start_pos_x) else 0.0`. -/
def currentB (b_mag : ℚ) (field_off_flag : Bool) (px : ℚ) : ℚ :=
  if field_off_flag = false ∧ px ≥ field_start_pos_x then b_mag else 0

/-- Line 109: `fuerza_x = q * vel[1] * current_B`. -/
def fuerza_x (vy current_B : ℚ) : ℚ := q_proton * vy * current_B

/-- Line 110: `fuerza_y = -q * vel[0] * current_B`. -/
def fuerza_y (vx current_B : ℚ) : ℚ := -q_proton * vx * current_B

/-- Lines 106-121: one body of the integration loop; the field is read at the
pre-update position, velocity is updated first, then position uses the
updated velocity. -/
def eulerStep (b_mag : ℚ) (field_off_flag : Bool) (s : SimState) : SimState :=
  let current_B := currentB b_mag field_off_flag s.px
  let ax := fuerza_x s.vy current_B / m_proton
  let ay := fuerza_y s.vx current_B / m_proton
  let vx := s.vx + ax * dt
  let vy := s.vy + ay * dt
  let px := s.px + vx * dt
  let py := s.py + vy * dt
  ⟨px, py, vx, vy⟩

/-- Lines 128-129: the safety-cutoff test on the freshly updated position. -/
def cutoff (s : SimState) : Prop :=
  |s.px| > 2 * |X_LIM_RIGHT| ∨ |s.py| > 2 * |Y_LIM|

instance cutoff_decidable (s : SimState) : Decidable (cutoff s) := by
  unfold cutoff
  infer_instance

/-- Lines 102-130: the `for step in range(1, n_steps)` loop.  `step` is the
Python loop counter (used for the recorded time), `fuel` the number of loop
iterations remaining; each iteration appends one sample and breaks after
appending when the cutoff fires. -/
def simLoopAux (b_mag : ℚ) (field_off_flag : Bool) : SimState → ℕ → ℕ → List Sample
  | _, _, 0 => []
  | s, step, fuel + 1 =>
    let s1 := eulerStep b_mag field_off_flag s
    let smp : Sample := ⟨s1.px, s1.py, (step : ℚ) * dt⟩
    if cutoff s1 then [smp]
    else smp :: simLoopAux b_mag field_off_flag s1 (step + 1) fuel

/-- Lines 86-132: `run_simulation(b_mag, v_mag, field_off_flag)`.  Line 92-93
zero `b_mag` when the flag is set; the initial sample is appended before the
loop. -/
def run_simulation (b_mag v_mag : ℚ) (field_off_flag : Bool) : List Sample :=
  let b_eff := if field_off_flag then 0 else b_mag
  ⟨initial_pos_x, 0, 0⟩ :: simLoopAux b_eff field_off_flag ⟨initial_pos_x, 0, v_mag, 0⟩ 1 (n_steps - 1)

/-- Instrumentation of the same loop recording, per iteration, the
`current_B` value (line 106) actually used to compute the force. -/
def simLoopB (b_mag : ℚ) (field_off_flag : Bool) : SimState → ℕ → List ℚ
  | _, 0 => []
  | s, fuel + 1 =>
    let bu := currentB b_mag field_off_flag s.px
    let s1 := eulerStep b_mag field_off_flag s
    if cutoff s1 then [bu]
    else bu :: simLoopB b_mag field_off_flag s1 fuel

/-- The sequence of field values used by `run_simulation`, entry `i` being
the value used in the iteration that produced sample `i + 1`. -/
def usedFields (b_mag v_mag : ℚ) (field_off_flag : Bool) : List ℚ :=
  let b_eff := if field_off_flag then 0 else b_mag
  simLoopB b_eff field_off_flag ⟨initial_pos_x, 0, v_mag, 0⟩ (n_steps - 1)

/-- Squared speed `vel[0]**2 + vel[1]**2` of an integrator state. -/
def speedSq (s : SimState) : ℚ := s.vx ^ 2 + s.vy ^ 2

/-- Python list indexing `xs[i]`: valid for `-len ≤ i < len` with negative
indices counting from the end; anything else raises `IndexError`, modelled
as `none`. -/
def pyIndex (xs : List ℚ) (i : ℤ) : Option ℚ :=
  if 0 ≤ i then xs.get? i.toNat
  else if 0 ≤ i + xs.length then xs.get? (i + xs.length).toNat
  else none

/-- Python slice `xs[:j]`: a negative stop counts from the end; slicing
never raises. -/
def pySliceTo (xs : List ℚ) (j : ℤ) : List ℚ :=
  if 0 ≤ j then xs.take j.toNat else xs.take (j + xs.length).toNat

/-- Lines 189-194: the zone label shown by `update` (and, for the
field-off case, by `init`). -/
def campo_status (field_off_flag : Bool) (x : ℚ) : String :=
  if field_off_flag then "SIN campo (B=0)"
  else if x ≥ field_start_pos_x then "CON campo" else "SIN campo"

/-- The data `update(frame)` pushes to the renderer: partial polyline, the
marker coordinates, and the zone label. -/
structure Frame where
  line_x : List ℚ
  line_y : List ℚ
  punto_x : ℚ
  punto_y : ℚ
  campo : String

/-- Lines 184-197: `create_animation.update(frame)`; it slices
`posiciones_x[:frame+1]` / `posiciones_y[:frame+1]` (never raises) and then
indexes `posiciones_x[frame]` / `posiciones_y[frame]` (raises `IndexError`,
i.e. `none`, for an index outside Python range). -/
def animation_update (field_off_flag : Bool) (xs ys : List ℚ) (frame : ℤ) : Option Frame :=
  match pyIndex xs frame, pyIndex ys frame with
  | some px, some py =>
    some ⟨pySliceTo xs (frame + 1), pySliceTo ys (frame + 1), px, py,
      campo_status field_off_flag px⟩
  | _, _ => none

/-- Lines 211 and 284: the displayed field value `B if not field_off else 0`. -/
def field_metric (B : ℚ) (field_off : Bool) : ℚ :=
  if field_off then 0 else B

/-- Lines 224-227: the persisted session keys `simulation_data` (the pair of
position lists stored by the play handler) and `simulation_run`. -/
structure SessionState where
  simulation_data : Option (List ℚ × List ℚ)
  simulation_run : Bool

/-- The widget values the script reads each rerun: the two sliders and the
`B = 0` toggle.  Streamlit keeps each widget's current value across reruns;
the script never writes to them. -/
structure WidgetState where
  B : ℚ
  velocity : ℚ
  field_off : Bool

/-- One full script state: widget values plus the persisted session keys. -/
structure AppState where
  widgets : WidgetState
  session : SessionState

/-- Lines 230-240: the button handlers, in source order — the play handler
stores `(posiciones_x, posiciones_y)` and sets `simulation_run`; the reset
handler then clears both keys. -/
def handle_buttons (play_button reset_button : Bool) (w : WidgetState)
    (s : SessionState) : SessionState :=
  let s1 := if play_button then
    (⟨some ((run_simulation w.B w.velocity w.field_off).map Sample.x,
            (run_simulation w.B w.velocity w.field_off).map Sample.y), true⟩ : SessionState)
    else s
  if reset_button then ⟨none, false⟩ else s1

/-- One top-to-bottom rerun of the script, as it acts on the persisted
state: widget values persist unchanged, the session keys go through the
button handlers. -/
def rerun_step (play_button reset_button : Bool) (a : AppState) : AppState :=
  ⟨a.widgets, handle_buttons play_button reset_button a.widgets a.session⟩

theorem eulerStep_true (b : ℚ) (s : SimState) :
    eulerStep b true s = ⟨s.px + s.vx * dt, s.py + s.vy * dt, s.vx, s.vy⟩ := by
  simp [eulerStep, currentB, fuerza_x, fuerza_y]

theorem eulerStep_zero_vel (b : ℚ) (f : Bool) (x y : ℚ) :
    eulerStep b f ⟨x, y, 0, 0⟩ = ⟨x, y, 0, 0⟩ := by
  simp [eulerStep, currentB, fuerza_x, fuerza_y]

theorem simLoopAux_length_le (b : ℚ) (f : Bool) :
    ∀ (fuel : ℕ) (s : SimState) (step : ℕ),
      (simLoopAux b f s step fuel).length ≤ fuel := by
  intro fuel
  induction fuel with
  | zero => intro s step; simp [simLoopAux]
  | succ n ih =>
    intro s step
    simp only [simLoopAux]
    split
    · simp
    · simpa using ih (eulerStep b f s) (step + 1)

theorem simLoopAux_last_cutoff (b : ℚ) (f : Bool) :
    ∀ (fuel : ℕ) (s : SimState) (step : ℕ),
      (simLoopAux b f s step fuel).length < fuel →
      ∃ smp, (simLoopAux b f s step fuel).getLast? = some smp ∧
        (|smp.x| > 2 * |X_LIM_RIGHT| ∨ |smp.y| > 2 * |Y_LIM|) := by
  intro fuel
  induction fuel with
  | zero => intro s step h; omega
  | succ n ih =>
    intro s step h
    simp only [simLoopAux] at h ⊢
    by_cases hc : cutoff (eulerStep b f s)
    · rw [if_pos hc] at h ⊢
      exact ⟨_, rfl, hc⟩
    · rw [if_neg hc] at h ⊢
      simp only [List.length_cons] at h
      have hrest := ih (eulerStep b f s) (step + 1) (by omega)
      obtain ⟨smp, hlast, hprop⟩ := hrest
      refine ⟨smp, ?_, hprop⟩
      rcases hr : simLoopAux b f (eulerStep b f s) (step + 1) n with _ | ⟨a, l⟩
      · rw [hr] at hlast; simp at hlast
      · rw [hr] at hlast
        rw [List.getLast?_cons_cons]
        exact hlast

theorem simLoopAux_true_mem (b v x0 y0 : ℚ) :
    ∀ (fuel step : ℕ) (s : SimState),
      s.px = x0 + ((step : ℚ) - 1) * (v * dt) → s.py = y0 → s.vx = v → s.vy = 0 →
      ∀ smp ∈ simLoopAux b true s step fuel, smp.y = y0 ∧ smp.x = x0 + v * smp.t := by
  intro fuel
  induction fuel with
  | zero => intro step s _ _ _ _ smp hmem; simp [simLoopAux] at hmem
  | succ n ih =>
    intro step s hpx hpy hvx hvy smp hmem
    have hstep : eulerStep b true s = ⟨s.px + s.vx * dt, s.py + s.vy * dt, s.vx, s.vy⟩ :=
      eulerStep_true b s
    have hsmp : ∀ m : Sample,
        m = ⟨(eulerStep b true s).px, (eulerStep b true s).py, (step : ℚ) * dt⟩ →
        m.y = y0 ∧ m.x = x0 + v * m.t := by
      intro m hm
      subst hm
      rw [hstep]
      constructor
      · simp [hpy, hvy]
      · simp only [hpx, hvx]
        ring
    simp only [simLoopAux] at hmem
    by_cases hc : cutoff (eulerStep b true s)
    · rw [if_pos hc] at hmem
      simp only [List.mem_singleton] at hmem
      exact hsmp smp hmem
    · rw [if_neg hc] at hmem
      rcases List.mem_cons.mp hmem with h | h
      · exact hsmp smp h
      · refine ih (step + 1) (eulerStep b true s) ?_ ?_ ?_ ?_ smp h
        · rw [hstep]
          simp only [hpx, hvx]
          push_cast
          ring
        · rw [hstep]; simp [hpy, hvy]
        · rw [hstep]; exact hvx
        · rw [hstep]; exact hvy

theorem simLoopB_true_zero (b : ℚ) :
    ∀ (fuel : ℕ) (s : SimState), ∀ bu ∈ simLoopB b true s fuel, bu = 0 := by
  intro fuel
  induction fuel with
  | zero => intro s bu h; simp [simLoopB] at h
  | succ n ih =>
    intro s bu h
    have hcb : currentB b true s.px = 0 := by simp [currentB]
    simp only [simLoopB] at h
    by_cases hc : cutoff (eulerStep b true s)
    · rw [if_pos hc] at h
      simp only [List.mem_singleton] at h
      rw [h, hcb]
    · rw [if_neg hc] at h
      rcases List.mem_cons.mp h with h' | h'
      · rw [h', hcb]
      · exact ih (eulerStep b true s) bu h'

theorem simLoopB_get (b : ℚ) (f : Bool) :
    ∀ (fuel : ℕ) (s : SimState) (step i : ℕ),
      i < (simLoopB b f s fuel).length →
      (simLoopB b f s fuel).get? i =
        ((s.px :: (simLoopAux b f s step fuel).map Sample.x).get? i).map (currentB b f) := by
  intro fuel
  induction fuel with
  | zero => intro s step i h; simp [simLoopB] at h
  | succ n ih =>
    intro s step i h
    simp only [simLoopB, simLoopAux] at h ⊢
    by_cases hc : cutoff (eulerStep b f s)
    · rw [if_pos hc] at h ⊢
      rw [if_pos hc]
      have hi : i = 0 := by simpa using h
      subst hi
      simp
    · rw [if_neg hc] at h ⊢
      rw [if_neg hc]
      match i with
      | 0 => simp
      | j + 1 =>
        simp only [List.length_cons] at h
        have := ih (eulerStep b f s) (step + 1) j (by omega)
        simpa using this

theorem simLoopB_length_pos (b : ℚ) (f : Bool) (s : SimState) (fuel : ℕ)
    (h : fuel ≠ 0) : 0 < (simLoopB b f s fuel).length := by
  match fuel with
  | 0 => omega
  | n + 1 =>
    simp only [simLoopB]
    split <;> simp

theorem iterate_eulerStep_true (b v x0 : ℚ) :
    ∀ j : ℕ, (eulerStep b true)^[j] ⟨x0, 0, v, 0⟩ = ⟨x0 + (j : ℚ) * (v * dt), 0, v, 0⟩ := by
  intro j
  induction j with
  | zero => simp
  | succ n ih =>
    rw [Function.iterate_succ_apply', ih, eulerStep_true]
    simp only [SimState.mk.injEq]
    push_cast
    norm_num
    ring

theorem simLoopAux_length_of_cutoff (b : ℚ) (f : Bool) :
    ∀ (m fuel step : ℕ) (s : SimState), m < fuel →
      (∀ j : ℕ, j < m → ¬ cutoff ((eulerStep b f)^[j + 1] s)) →
      cutoff ((eulerStep b f)^[m + 1] s) →
      (simLoopAux b f s step fuel).length = m + 1 := by
  intro m
  induction m with
  | zero =>
    intro fuel step s hm _ htop
    match fuel, hm with
    | n + 1, _ =>
      simp only [simLoopAux]
      rw [if_pos (by simpa using htop)]
      simp
  | succ k ih =>
    intro fuel step s hm hsafe htop
    match fuel, hm with
    | n + 1, _ =>
      have h0 : ¬ cutoff (eulerStep b f s) := by
        simpa using hsafe 0 (by omega)
      simp only [simLoopAux]
      rw [if_neg h0]
      simp only [List.length_cons]
      have hrec := ih n (step + 1) (eulerStep b f s) (by omega)
        (fun j hj => by
          rw [← Function.iterate_succ_apply]
          exact hsafe (j + 1) (by omega))
        (by
          rw [← Function.iterate_succ_apply]
          exact htop)
      omega

theorem simLoopAux_fixed (b : ℚ) (f : Bool) (s : SimState)
    (hfix : eulerStep b f s = s) (hnc : ¬ cutoff s) :
    ∀ (fuel step : ℕ),
      (simLoopAux b f s step fuel).length = fuel ∧
      ∀ smp ∈ simLoopAux b f s step fuel, smp.x = s.px ∧ smp.y = s.py := by
  intro fuel
  induction fuel with
  | zero => intro step; simp [simLoopAux]
  | succ n ih =>
    intro step
    simp only [simLoopAux, hfix]
    rw [if_neg hnc]
    constructor
    · simp [(ih (step + 1)).1]
    · intro smp hmem
      rcases List.mem_cons.mp hmem with h | h
      · simp [h]
      · exact (ih (step + 1)).2 smp h

theorem twice_xlim : (2 : ℚ) * |X_LIM_RIGHT| = 1 / 10 := by
  rw [X_LIM_RIGHT, abs_of_pos] <;> norm_num

theorem twice_ylim : (2 : ℚ) * |Y_LIM| = 1 / 5 := by
  rw [Y_LIM, abs_of_pos] <;> norm_num

theorem run_simulation_true (b v : ℚ) :
    run_simulation b v true =
      ⟨initial_pos_x, 0, 0⟩ :: simLoopAux 0 true ⟨initial_pos_x, 0, v, 0⟩ 1 (n_steps - 1) := rfl

theorem run_simulation_false (b v : ℚ) :
    run_simulation b v false =
      ⟨initial_pos_x, 0, 0⟩ :: simLoopAux b false ⟨initial_pos_x, 0, v, 0⟩ 1 (n_steps - 1) := rfl

theorem run_fieldoff_default_length :
    (run_simulation B_initial velocity_initial true).length = 802 := by
  rw [run_simulation_true]
  rw [List.length_cons]
  have hloop : (simLoopAux 0 true ⟨initial_pos_x, 0, velocity_initial, 0⟩ 1 (n_steps - 1)).length = 801 := by
    apply simLoopAux_length_of_cutoff 0 true 800 (n_steps - 1) 1
      ⟨initial_pos_x, 0, velocity_initial, 0⟩ (by norm_num [n_steps])
    · intro j hj
      rw [iterate_eulerStep_true]
      rw [cutoff]
      push_neg
      constructor
      · rw [twice_xlim]
        rw [abs_le]
        have hj' : (j : ℚ) ≤ 799 := by exact_mod_cast Nat.le_of_lt_succ (by omega)
        have hj0 : (0 : ℚ) ≤ (j : ℚ) := Nat.cast_nonneg j
        push_cast
        rw [initial_pos_x, velocity_initial, dt]
        constructor <;> norm_num <;> linarith
      · rw [twice_ylim]
        norm_num
    · rw [iterate_eulerStep_true]
      rw [cutoff]
      left
      rw [twice_xlim]
      refine lt_of_lt_of_le ?_ (le_abs_self _)
      show (1 : ℚ) / 10 < initial_pos_x + (((800 : ℕ) + 1 : ℕ) : ℚ) * (velocity_initial * dt)
      rw [initial_pos_x, velocity_initial, dt]
      push_cast
      norm_num
  omega

theorem head_mem_run (b v : ℚ) (f : Bool) :
    (⟨initial_pos_x, 0, 0⟩ : Sample) ∈ run_simulation b v f :=
  List.mem_cons_self _ _

theorem run_get_zero (b v : ℚ) (f : Bool) :
    (run_simulation b v f).get? 0 = some ⟨initial_pos_x, 0, 0⟩ := rfl

theorem simLoopB_head_mem (b : ℚ) (f : Bool) (s : SimState) (fuel : ℕ)
    (h : fuel ≠ 0) : currentB b f s.px ∈ simLoopB b f s fuel := by
  match fuel with
  | 0 => omega
  | n + 1 =>
    simp only [simLoopB]
    split <;> simp

theorem eulerStep_fast : eulerStep 0 true ⟨initial_pos_x, 0, 2 * 10 ^ 7, 0⟩ =
    ⟨9 / 50, 0, 2 * 10 ^ 7, 0⟩ := by
  rw [eulerStep_true]
  simp only [SimState.mk.injEq]
  rw [initial_pos_x, dt]
  norm_num

theorem cutoff_fast : cutoff ⟨9 / 50, 0, 2 * 10 ^ 7, 0⟩ := by
  rw [cutoff]
  left
  rw [twice_xlim]
  refine lt_of_lt_of_le ?_ (le_abs_self _)
  norm_num

theorem simLoopAux_succ (b : ℚ) (f : Bool) (s : SimState) (step n : ℕ) :
    simLoopAux b f s step (n + 1) =
      if cutoff (eulerStep b f s)
      then [⟨(eulerStep b f s).px, (eulerStep b f s).py, (step : ℚ) * dt⟩]
      else (⟨(eulerStep b f s).px, (eulerStep b f s).py, (step : ℚ) * dt⟩ : Sample) ::
        simLoopAux b f (eulerStep b f s) (step + 1) n := rfl

theorem simLoopB_succ (b : ℚ) (f : Bool) (s : SimState) (n : ℕ) :
    simLoopB b f s (n + 1) =
      if cutoff (eulerStep b f s)
      then [currentB b f s.px]
      else currentB b f s.px :: simLoopB b f (eulerStep b f s) n := rfl

theorem run_fast_eval : run_simulation 0 (2 * 10 ^ 7) true =
    [⟨initial_pos_x, 0, 0⟩, ⟨9 / 50, 0, dt⟩] := by
  rw [run_simulation_true]
  rw [show n_steps - 1 = 4998 + 1 from rfl]
  rw [simLoopAux_succ, eulerStep_fast, if_pos cutoff_fast]
  simp

theorem abs_init_le : |initial_pos_x| = 1 / 50 := by
  rw [initial_pos_x, abs_of_neg] <;> norm_num

theorem xlim_noabs : (2 : ℚ) * X_LIM_RIGHT = 2 * |X_LIM_RIGHT| := by
  rw [X_LIM_RIGHT, abs_of_pos] <;> norm_num

theorem ylim_noabs : (2 : ℚ) * Y_LIM = 2 * |Y_LIM| := by
  rw [Y_LIM, abs_of_pos] <;> norm_num

/-- C1: with the field-disabled flag set, every field value the integrator
uses is `0` (hence both Lorentz force components vanish at every step), and
the returned path is exactly a straight line: every sample has `y = 0` and
`x = initial_pos_x + v * t` for its own recorded time `t`. -/
theorem run_simulation_field_disabled_straight (b v : ℚ) :
    (∀ bu ∈ usedFields b v true,
      bu = 0 ∧ ∀ wx wy : ℚ, fuerza_x wy bu = 0 ∧ fuerza_y wx bu = 0) ∧
    (∀ smp ∈ run_simulation b v true,
      smp.y = 0 ∧ smp.x = initial_pos_x + v * smp.t) := by
  constructor
  · intro bu hmem
    have e : usedFields b v true =
        simLoopB 0 true ⟨initial_pos_x, 0, v, 0⟩ (n_steps - 1) := rfl
    rw [e] at hmem
    have h0 : bu = 0 := simLoopB_true_zero 0 (n_steps - 1) _ bu hmem
    refine ⟨h0, fun wx wy => ?_⟩
    rw [h0]
    constructor <;> simp [fuerza_x, fuerza_y]
  · intro smp hmem
    rw [run_simulation_true] at hmem
    rcases List.mem_cons.mp hmem with h | h
    · subst h
      refine ⟨rfl, ?_⟩
      show initial_pos_x = initial_pos_x + v * 0
      ring
    · exact simLoopAux_true_mem 0 v initial_pos_x 0 (n_steps - 1) 1 _
        (by norm_num) rfl rfl rfl smp h

theorem run_simulation_field_disabled_straight_witness :
    currentB 0 true initial_pos_x = 0 ∧
    ((⟨initial_pos_x, 0, 0⟩ : Sample).y = 0 ∧
      (⟨initial_pos_x, 0, 0⟩ : Sample).x =
        initial_pos_x + velocity_initial * (⟨initial_pos_x, 0, 0⟩ : Sample).t) := by
  constructor
  · refine ((run_simulation_field_disabled_straight B_initial velocity_initial).1
      (currentB 0 true initial_pos_x) ?_).1
    have e : usedFields B_initial velocity_initial true =
        simLoopB 0 true ⟨initial_pos_x, 0, velocity_initial, 0⟩ (n_steps - 1) := rfl
    rw [e]
    exact simLoopB_head_mem 0 true ⟨initial_pos_x, 0, velocity_initial, 0⟩ (n_steps - 1)
      (by norm_num [n_steps])
  · exact (run_simulation_field_disabled_straight B_initial velocity_initial).2 _
      (head_mem_run _ _ _)

/-- C2: the field value used in the iteration that produced sample `i + 1`
is `currentB` evaluated at the x-position of sample `i`, the position at the
start of that step, never at the updated position. -/
theorem usedFields_start_of_step (b v : ℚ) (f : Bool) (i : ℕ)
    (h : i < (usedFields b v f).length) :
    (usedFields b v f).get? i =
      (((run_simulation b v f).map Sample.x).get? i).map
        (currentB (if f then 0 else b) f) := by
  have e1 : usedFields b v f =
      simLoopB (if f then 0 else b) f ⟨initial_pos_x, 0, v, 0⟩ (n_steps - 1) := rfl
  rw [e1] at h ⊢
  have := simLoopB_get (if f then 0 else b) f (n_steps - 1) ⟨initial_pos_x, 0, v, 0⟩ 1 i h
  exact this

theorem usedFields_start_of_step_witness :
    0 < (usedFields B_initial velocity_initial false).length ∧
    (usedFields B_initial velocity_initial false).get? 0 =
      (((run_simulation B_initial velocity_initial false).map Sample.x).get? 0).map
        (currentB (if false then 0 else B_initial) false) := by
  have hlen : 0 < (usedFields B_initial velocity_initial false).length := by
    have e : usedFields B_initial velocity_initial false =
        simLoopB B_initial false ⟨initial_pos_x, 0, velocity_initial, 0⟩ (n_steps - 1) := rfl
    rw [e]
    exact simLoopB_length_pos _ _ _ _ (by norm_num [n_steps])
  exact ⟨hlen, usedFields_start_of_step B_initial velocity_initial false 0 hlen⟩

/-- C3: for every parameter choice the returned sequence has length in
`[1, n_steps]`, its sample at index 0 is the fixed initial condition
`(x = initial_pos_x, y = 0, t = 0)`, and when it is shorter than `n_steps`
its last sample satisfies the safety-cutoff condition. -/
theorem run_simulation_length_head_cutoff (b v : ℚ) (f : Bool) :
    1 ≤ (run_simulation b v f).length ∧
    (run_simulation b v f).length ≤ n_steps ∧
    (run_simulation b v f).get? 0 = some ⟨initial_pos_x, 0, 0⟩ ∧
    ((run_simulation b v f).length < n_steps →
      ∃ smp, (run_simulation b v f).getLast? = some smp ∧
        (|smp.x| > 2 * X_LIM_RIGHT ∨ |smp.y| > 2 * Y_LIM)) := by
  have hn : n_steps = 5000 := rfl
  have e : run_simulation b v f =
      ⟨initial_pos_x, 0, 0⟩ ::
        simLoopAux (if f then 0 else b) f ⟨initial_pos_x, 0, v, 0⟩ 1 (n_steps - 1) := rfl
  have hle := simLoopAux_length_le (if f then 0 else b) f (n_steps - 1)
    ⟨initial_pos_x, 0, v, 0⟩ 1
  refine ⟨?_, ?_, rfl, ?_⟩
  · rw [e]; simp
  · rw [e]
    simp only [List.length_cons]
    omega
  · intro hlt
    rw [e] at hlt ⊢
    simp only [List.length_cons] at hlt
    obtain ⟨smp, hl, hp⟩ := simLoopAux_last_cutoff (if f then 0 else b) f (n_steps - 1)
      ⟨initial_pos_x, 0, v, 0⟩ 1 (by omega)
    refine ⟨smp, ?_, ?_⟩
    · rcases hr : simLoopAux (if f then 0 else b) f ⟨initial_pos_x, 0, v, 0⟩ 1 (n_steps - 1)
        with _ | ⟨a, l⟩
      · rw [hr] at hl; simp at hl
      · rw [hr] at hl
        rw [List.getLast?_cons_cons]
        exact hl
    · rw [xlim_noabs, ylim_noabs]
      exact hp

theorem run_simulation_length_head_cutoff_witness :
    (run_simulation B_initial velocity_initial true).length < n_steps ∧
    ∃ smp, (run_simulation B_initial velocity_initial true).getLast? = some smp ∧
      (|smp.x| > 2 * X_LIM_RIGHT ∨ |smp.y| > 2 * Y_LIM) := by
  have hlt : (run_simulation B_initial velocity_initial true).length < n_steps := by
    rw [run_fieldoff_default_length]
    norm_num [n_steps]
  exact ⟨hlt, (run_simulation_length_head_cutoff B_initial velocity_initial true).2.2.2 hlt⟩

/-- C4: the integrator is deterministic — it is a pure function of the triple
`(b_mag, v_mag, field_off_flag)`, so two calls on equal inputs give
sequences equal in length and pointwise in every field. -/
theorem run_simulation_deterministic (b1 v1 : ℚ) (f1 : Bool) (b2 v2 : ℚ) (f2 : Bool)
    (hb : b1 = b2) (hv : v1 = v2) (hf : f1 = f2) :
    run_simulation b1 v1 f1 = run_simulation b2 v2 f2 ∧
    (run_simulation b1 v1 f1).length = (run_simulation b2 v2 f2).length ∧
    ∀ i : ℕ, (run_simulation b1 v1 f1).get? i = (run_simulation b2 v2 f2).get? i := by
  subst hb
  subst hv
  subst hf
  exact ⟨rfl, rfl, fun _ => rfl⟩

theorem run_simulation_deterministic_witness :
    run_simulation B_initial velocity_initial false =
      run_simulation B_initial velocity_initial false ∧
    (run_simulation B_initial velocity_initial false).length =
      (run_simulation B_initial velocity_initial false).length ∧
    ∀ i : ℕ, (run_simulation B_initial velocity_initial false).get? i =
      (run_simulation B_initial velocity_initial false).get? i :=
  run_simulation_deterministic B_initial velocity_initial false B_initial velocity_initial false
    rfl rfl rfl

/-- C5 (amended): with `B_initial = 0.005`, `velocity_initial = 15000`,
`field_off = true`, `dt = 1e-8`, `n_steps = 5000`, the run terminates early
through the safety cutoff at step 801 and returns 802 samples, all of which
lie exactly on `y = 0`. -/
theorem run_scenario_fieldoff (_h : dt = 1e-8) :
    (run_simulation B_initial velocity_initial true).length = 802 ∧
    ∀ smp ∈ run_simulation B_initial velocity_initial true, smp.y = 0 := by
  refine ⟨run_fieldoff_default_length, ?_⟩
  intro smp hmem
  rw [run_simulation_true] at hmem
  rcases List.mem_cons.mp hmem with h | h
  · rw [h]
  · exact (simLoopAux_true_mem 0 velocity_initial initial_pos_x 0 (n_steps - 1) 1 _
      (by norm_num) rfl rfl rfl smp h).1

theorem run_scenario_fieldoff_witness :
    dt = 1e-8 ∧ (run_simulation B_initial velocity_initial true).length = 802 ∧
    (⟨initial_pos_x, 0, 0⟩ : Sample).y = 0 :=
  ⟨rfl, (run_scenario_fieldoff rfl).1,
    (run_scenario_fieldoff rfl).2 _ (head_mem_run _ _ _)⟩

/-- C5 counterexample: with those exact parameters the run does not return
5000 samples — it stops at 802, refuting the claimed sample count. -/
theorem run_scenario_fieldoff_cex :
    (run_simulation B_initial velocity_initial true).length ≠ 5000 := by
  rw [run_fieldoff_default_length]
  norm_num

theorem not_cutoff_init : ¬ cutoff ⟨initial_pos_x, 0, 0, 0⟩ := by
  rw [cutoff]
  push_neg
  constructor
  · rw [twice_xlim]
    show |initial_pos_x| ≤ 1 / 10
    rw [abs_init_le]
    norm_num
  · rw [twice_ylim]
    show |(0 : ℚ)| ≤ 1 / 5
    simp

/-- C8: with `v_mag = 0` the trajectory is degenerate: the run uses all
`n_steps` samples, every sample sits at the initial point with `y = 0` and
never satisfies the cutoff condition, the integrator state (velocity
included) is a fixed point of every step, and the only divisor used by the
integrator, `m_proton`, is nonzero (so the exact arithmetic never becomes
undefined). -/
theorem run_simulation_zero_speed_degenerate (b : ℚ) (f : Bool) :
    (run_simulation b 0 f).length = n_steps ∧
    (∀ smp ∈ run_simulation b 0 f,
      smp.x = initial_pos_x ∧ smp.y = 0 ∧
      ¬(|smp.x| > 2 * X_LIM_RIGHT ∨ |smp.y| > 2 * Y_LIM)) ∧
    (∀ j : ℕ, (eulerStep (if f then 0 else b) f)^[j] ⟨initial_pos_x, 0, 0, 0⟩ =
      ⟨initial_pos_x, 0, 0, 0⟩) ∧
    m_proton ≠ 0 := by
  have hn : n_steps = 5000 := rfl
  have hfix : eulerStep (if f then 0 else b) f ⟨initial_pos_x, 0, 0, 0⟩ =
      ⟨initial_pos_x, 0, 0, 0⟩ := eulerStep_zero_vel _ f _ _
  have hK := simLoopAux_fixed (if f then 0 else b) f ⟨initial_pos_x, 0, 0, 0⟩
    hfix not_cutoff_init (n_steps - 1)
  have e : run_simulation b 0 f =
      ⟨initial_pos_x, 0, 0⟩ ::
        simLoopAux (if f then 0 else b) f ⟨initial_pos_x, 0, 0, 0⟩ 1 (n_steps - 1) := rfl
  have hnum : ¬(|initial_pos_x| > 2 * X_LIM_RIGHT ∨ |(0 : ℚ)| > 2 * Y_LIM) := by
    push_neg
    rw [abs_init_le, X_LIM_RIGHT, Y_LIM]
    norm_num
  refine ⟨?_, ?_, fun j => Function.iterate_fixed hfix j, by norm_num [m_proton]⟩
  · rw [e]
    simp only [List.length_cons]
    rw [(hK 1).1]
    omega
  · intro smp hmem
    rw [e] at hmem
    rcases List.mem_cons.mp hmem with h | h
    · subst h
      exact ⟨rfl, rfl, hnum⟩
    · obtain ⟨hx, hy⟩ := (hK 1).2 smp h
      refine ⟨hx, hy, ?_⟩
      rw [hx, hy]
      exact hnum

theorem run_simulation_zero_speed_degenerate_witness :
    (⟨initial_pos_x, 0, 0⟩ : Sample) ∈ run_simulation 1 0 false ∧
    ((⟨initial_pos_x, 0, 0⟩ : Sample).x = initial_pos_x ∧
      (⟨initial_pos_x, 0, 0⟩ : Sample).y = 0 ∧
      ¬(|(⟨initial_pos_x, 0, 0⟩ : Sample).x| > 2 * X_LIM_RIGHT ∨
        |(⟨initial_pos_x, 0, 0⟩ : Sample).y| > 2 * Y_LIM)) :=
  ⟨head_mem_run 1 0 false,
    (run_simulation_zero_speed_degenerate 1 false).2.1 _ (head_mem_run 1 0 false)⟩

/-- C10: one Euler update multiplies the squared speed by exactly
`1 + (q*B*dt/m)^2` where `B` is the effective field read at the start-of-step
position; hence the squared speed is unchanged when that field is `0` and
strictly increases when it is nonzero and the velocity is nonzero. -/
theorem eulerStep_speed_growth (b : ℚ) (f : Bool) (s : SimState) :
    speedSq (eulerStep b f s) =
      speedSq s * (1 + (q_proton * currentB b f s.px * dt / m_proton) ^ 2) ∧
    (currentB b f s.px = 0 → speedSq (eulerStep b f s) = speedSq s) ∧
    (currentB b f s.px ≠ 0 → ¬(s.vx = 0 ∧ s.vy = 0) →
      speedSq s < speedSq (eulerStep b f s)) := by
  have hm : m_proton ≠ 0 := by norm_num [m_proton]
  have hq : q_proton ≠ 0 := by norm_num [q_proton]
  have hdt : dt ≠ 0 := by norm_num [dt]
  have hmain : speedSq (eulerStep b f s) =
      speedSq s * (1 + (q_proton * currentB b f s.px * dt / m_proton) ^ 2) := by
    simp only [speedSq, eulerStep, fuerza_x, fuerza_y]
    field_simp
    ring
  refine ⟨hmain, ?_, ?_⟩
  · intro h0
    rw [hmain, h0]
    ring
  · intro hB hv
    rw [hmain]
    have hc : q_proton * currentB b f s.px * dt / m_proton ≠ 0 :=
      div_ne_zero (mul_ne_zero (mul_ne_zero hq hB) hdt) hm
    have hc2 : 0 < (q_proton * currentB b f s.px * dt / m_proton) ^ 2 :=
      lt_of_le_of_ne (sq_nonneg _) (Ne.symm (pow_ne_zero 2 hc))
    have hsp : 0 < speedSq s := by
      rw [speedSq]
      rcases not_and_or.mp hv with h | h
      · have h1 : 0 < s.vx ^ 2 := lt_of_le_of_ne (sq_nonneg _) (Ne.symm (pow_ne_zero 2 h))
        nlinarith [sq_nonneg s.vy]
      · have h1 : 0 < s.vy ^ 2 := lt_of_le_of_ne (sq_nonneg _) (Ne.symm (pow_ne_zero 2 h))
        nlinarith [sq_nonneg s.vx]
    nlinarith [hsp, hc2]

theorem eulerStep_speed_growth_witness :
    currentB 1 false ((⟨0, 0, 1, 0⟩ : SimState).px) ≠ 0 ∧
    ¬((⟨0, 0, 1, 0⟩ : SimState).vx = 0 ∧ (⟨0, 0, 1, 0⟩ : SimState).vy = 0) ∧
    speedSq ⟨0, 0, 1, 0⟩ < speedSq (eulerStep 1 false ⟨0, 0, 1, 0⟩) := by
  have hB : currentB 1 false ((⟨0, 0, 1, 0⟩ : SimState).px) = 1 := by
    rw [currentB, if_pos]
    refine ⟨rfl, ?_⟩
    show (0 : ℚ) ≥ field_start_pos_x
    rw [field_start_pos_x]
    norm_num
  refine ⟨by rw [hB]; norm_num, by simp, ?_⟩
  exact (eulerStep_speed_growth 1 false ⟨0, 0, 1, 0⟩).2.2
    (by rw [hB]; norm_num) (by simp)

theorem pyIndex_eq_none_iff (xs : List ℚ) (i : ℤ) :
    pyIndex xs i = none ↔ ((xs.length : ℤ) ≤ i ∨ i + (xs.length : ℤ) < 0) := by
  rw [pyIndex]
  by_cases h0 : 0 ≤ i
  · rw [if_pos h0, List.get?_eq_none]
    omega
  · rw [if_neg h0]
    by_cases h1 : 0 ≤ i + (xs.length : ℤ)
    · rw [if_pos h1, List.get?_eq_none]
      omega
    · rw [if_neg h1]
      constructor
      · intro _
        omega
      · intro _
        rfl

theorem pyIndex_some_val (xs : List ℚ) (i : ℤ) (px : ℚ) (h : pyIndex xs i = some px) :
    some px = xs.get? (if 0 ≤ i then i.toNat else (i + (xs.length : ℤ)).toNat) := by
  rw [pyIndex] at h
  by_cases h0 : 0 ≤ i
  · rw [if_pos h0] at h
    rw [if_pos h0]
    exact h.symm
  · rw [if_neg h0] at h
    rw [if_neg h0]
    by_cases h1 : 0 ≤ i + (xs.length : ℤ)
    · rw [if_pos h1] at h
      exact h.symm
    · rw [if_neg h1] at h
      cases h

/-- C6 (amended): `create_animation.update` does not clamp the frame index.
When the two position lists have equal length, `update` fails (Python
`IndexError`, modelled as `none`) exactly when the index is outside
Python's valid range `[-len, len - 1]`; on a valid index it renders the
Python-indexed element itself — index `i` for `0 ≤ i < len`, index
`len + i` for negative `i` — never a clamped index.  (Inside the app,
`FuncAnimation` only ever passes indices `0 .. len - 1`.) -/
theorem animation_update_no_clamp (f : Bool) (xs ys : List ℚ) (i : ℤ)
    (hlen : xs.length = ys.length) :
    (animation_update f xs ys i = none ↔
      ((xs.length : ℤ) ≤ i ∨ i + (xs.length : ℤ) < 0)) ∧
    (∀ fr, animation_update f xs ys i = some fr →
      some fr.punto_x =
        xs.get? (if 0 ≤ i then i.toNat else (i + (xs.length : ℤ)).toNat)) := by
  have hys : pyIndex ys i = none ↔ pyIndex xs i = none := by
    rw [pyIndex_eq_none_iff, pyIndex_eq_none_iff, hlen]
  constructor
  · rcases hx : pyIndex xs i with _ | px
    · simp only [animation_update, hx]
      exact ⟨fun _ => (pyIndex_eq_none_iff xs i).mp hx, fun _ => trivial⟩
    · rcases hy : pyIndex ys i with _ | py
      · exact absurd (hys.mp hy) (by simp [hx])
      · simp only [animation_update, hx, hy]
        constructor
        · intro h
          exact absurd h (by simp)
        · intro hor
          exact absurd hx (by simp [(pyIndex_eq_none_iff xs i).mpr hor])
  · intro fr hfr
    rcases hx : pyIndex xs i with _ | px
    · simp [animation_update, hx] at hfr
    · rcases hy : pyIndex ys i with _ | py
      · simp [animation_update, hx, hy] at hfr
      · simp only [animation_update, hx, hy, Option.some.injEq] at hfr
        have hpx : fr.punto_x = px := by rw [← hfr]
        rw [hpx]
        exact pyIndex_some_val xs i px hx

theorem animation_update_no_clamp_witness :
    (animation_update false ((run_simulation 0 (2 * 10 ^ 7) true).map Sample.x)
        ((run_simulation 0 (2 * 10 ^ 7) true).map Sample.y) 2 = none ↔
      ((((run_simulation 0 (2 * 10 ^ 7) true).map Sample.x).length : ℤ) ≤ 2 ∨
        2 + (((run_simulation 0 (2 * 10 ^ 7) true).map Sample.x).length : ℤ) < 0)) ∧
    (∀ fr, animation_update false ((run_simulation 0 (2 * 10 ^ 7) true).map Sample.x)
        ((run_simulation 0 (2 * 10 ^ 7) true).map Sample.y) 2 = some fr →
      some fr.punto_x = ((run_simulation 0 (2 * 10 ^ 7) true).map Sample.x).get?
        (if 0 ≤ (2 : ℤ) then (2 : ℤ).toNat
          else ((2 : ℤ) + (((run_simulation 0 (2 * 10 ^ 7) true).map Sample.x).length : ℤ)).toNat)) :=
  animation_update_no_clamp false _ _ 2 (by simp)

/-- C6 counterexample: on the actually computed two-sample trajectory for
`b_mag = 0`, `v_mag = 2e7`, `field_off = true`, requesting frame index 2
(one past the end) makes `update` raise (result `none`) instead of clamping
to index 1 — out-of-bounds frame indices are errors, not clamped. -/
theorem animation_update_clamp_cex :
    animation_update false ((run_simulation 0 (2 * 10 ^ 7) true).map Sample.x)
      ((run_simulation 0 (2 * 10 ^ 7) true).map Sample.y) 2 = none ∧
    (run_simulation 0 (2 * 10 ^ 7) true).length = 2 := by
  rw [run_fast_eval]
  exact ⟨rfl, rfl⟩

/-- C7 (amended): the reset handler always yields a session with the stored
trajectory absent (`simulation_data = None`) and `simulation_run = false`,
from any prior state and even when the play handler fired in the same rerun
(the reset branch runs after it); the widget parameters are left at their
current values — the script stores no separate frame index or playing flag,
and playback restarts implicitly because the next render is the initial
placeholder. -/
theorem reset_clears_session (p : Bool) (a : AppState) :
    (rerun_step p true a).session.simulation_data = none ∧
    (rerun_step p true a).session.simulation_run = false ∧
    (rerun_step p true a).widgets = a.widgets := by
  refine ⟨?_, ?_, rfl⟩ <;> simp [rerun_step, handle_buttons]

/-- C7 counterexample: reset does not restore the default parameters — from
a state whose field slider sits at `0.01` (after a play stored a
trajectory), the reset rerun leaves the slider at `0.01 ≠ B_initial`. -/
theorem reset_defaults_cex :
    (rerun_step false true
      ⟨⟨0.01, 20000, false⟩, ⟨some ([initial_pos_x], [0]), true⟩⟩).widgets.B ≠ B_initial := by
  show (0.01 : ℚ) ≠ B_initial
  rw [B_initial]
  norm_num

/-- C9: toggling the field-off switch triggers a rerun with no button
pressed, which leaves the stored trajectory (session state) unchanged —
no recomputation — while the reported field metric is forced to `0` and the
status label to `"SIN campo (B=0)"` for every particle position; the stored
trajectory is replaced only by the next play rerun, which then uses the new
flag. -/
theorem field_toggle_no_recompute (w : WidgetState) (s : SessionState)
    (d : List ℚ × List ℚ) (hd : s.simulation_data = some d) :
    (rerun_step false false ⟨⟨w.B, w.velocity, true⟩, s⟩).session = s ∧
    (rerun_step false false ⟨⟨w.B, w.velocity, true⟩, s⟩).session.simulation_data = some d ∧
    field_metric w.B true = 0 ∧
    (∀ x : ℚ, campo_status true x = "SIN campo (B=0)") ∧
    (rerun_step true false ⟨⟨w.B, w.velocity, true⟩, s⟩).session.simulation_data =
      some ((run_simulation w.B w.velocity true).map Sample.x,
        (run_simulation w.B w.velocity true).map Sample.y) :=
  ⟨rfl, hd, rfl, fun _ => rfl, rfl⟩

theorem field_toggle_no_recompute_witness :
    (⟨some ([initial_pos_x], [(0 : ℚ)]), true⟩ : SessionState).simulation_data =
      some ([initial_pos_x], [(0 : ℚ)]) ∧
    field_metric B_initial true = 0 ∧
    (rerun_step false false ⟨⟨B_initial, velocity_initial, true⟩,
      ⟨some ([initial_pos_x], [(0 : ℚ)]), true⟩⟩).session =
      ⟨some ([initial_pos_x], [(0 : ℚ)]), true⟩ := by
  obtain ⟨h1, _, h3, _, _⟩ := field_toggle_no_recompute
    ⟨B_initial, velocity_initial, false⟩
    ⟨some ([initial_pos_x], [(0 : ℚ)]), true⟩
    ([initial_pos_x], [(0 : ℚ)]) rfl
  exact ⟨rfl, h3, h1⟩
